import Mathlib

/-!
# Verification of the `gap-buffer` crate (`src/lib.rs`, `src/main.rs`)

Shallow embedding of the gap buffer from `src/lib.rs`.  The backing `Vec<T>`
of capacity `cap` is modelled as `cap : Nat` together with a slot map
`buffer : Nat → Option T`: a slot holding a live or stale value maps to
`some v`, an uninitialized slot (and every index outside the allocation)
maps to `none`.  Raw-pointer primitives become functional updates:
`std::ptr::copy` (memmove, overlap-safe) becomes `memmove`, `std::ptr::write`
a pointwise update, `std::ptr::read` a lookup that leaves memory unchanged.
The `panic!("index out of bounds")` in `set_position` is modelled as
`Except.error Err.indexOutOfBounds`; returning the error constructs no new
state, so the original buffer is untouched on failure, exactly as the code
validates the bound before any pointer arithmetic.
-/

/-- `GAP_SIZE` constant from `src/lib.rs` (line 6). -/
def GAP_SIZE : Nat := 2

/-- The `GapBuffer<T>` struct: `buffer: Vec<T>` (its capacity and slot
contents) and `gap: Range<usize>` (its `start` and `end` fields). -/
structure GapBuffer (T : Type) where
  cap : Nat
  buffer : Nat → Option T
  gapStart : Nat
  gapEnd : Nat

namespace GapBuffer

variable {T : Type}

/-- `self.gap.len()` for the `Range<usize>` type: `end - start`
(0 when `start ≥ end`, matching `Nat` truncated subtraction). -/
def gapLen (gb : GapBuffer T) : Nat := gb.gapEnd - gb.gapStart

/-- `fn data_len(&self) -> usize { self.buffer.capacity() - self.gap.len() }` -/
def data_len (gb : GapBuffer T) : Nat := gb.cap - gb.gapLen

/-- `pub fn len(&self) -> usize { self.data_len() }` -/
def len (gb : GapBuffer T) : Nat := gb.data_len

/-- `pub fn new(data: Vec<T>) -> Self`: allocates capacity
`data.len() + GAP_SIZE`, sets `gap = 0..GAP_SIZE`, and relocates the input
elements, via `copy_nonoverlapping`, to physical offsets starting at
`gap.end = GAP_SIZE`.  Slots `[0, GAP_SIZE)` stay uninitialized (`none`). -/
def new (data : List T) : GapBuffer T where
  cap := data.length + GAP_SIZE
  buffer := fun i => if i < GAP_SIZE then none else data[i - GAP_SIZE]?
  gapStart := 0
  gapEnd := GAP_SIZE

/-- `fn translate_idx(&self, idx: usize) -> usize`. -/
def translate_idx (gb : GapBuffer T) (idx : Nat) : Nat :=
  if idx < gb.gapStart then idx else idx + gb.gapLen

/-- `pub fn get_ref_pos(&self, idx: usize) -> &T`: translates the index and
performs a raw, unchecked read `&*self.buffer.as_ptr().add(idx)`.  There is
no bounds check; the model returns whatever the slot map holds at the
translated physical index (`none` when the read leaves the allocation or
hits uninitialized memory). -/
def get_ref_pos (gb : GapBuffer T) (idx : Nat) : Option T :=
  gb.buffer (gb.translate_idx idx)

/-- `std::ptr::copy(src, dst, count)`: overlap-safe block move (memmove).
Every destination slot receives the value the *source* held before the
call; all other slots are untouched. -/
def memmove (f : Nat → Option T) (src dst count : Nat) : Nat → Option T :=
  fun i => if dst ≤ i ∧ i < dst + count then f (src + (i - dst)) else f i

/-- Error kind of the public API (`set_position` raises it by panicking
with message "index out of bounds"). -/
inductive Err where
  | indexOutOfBounds
deriving DecidableEq

/-- `pub fn set_position(&mut self, idx: usize)` from `src/lib.rs`
lines 50–75.  Validates `idx > self.data_len()` first (modelled as
`Except.error`, constructing no new state).  Otherwise computes `src`,
`dst`, `count` from the *old* gap, sets `gap = idx..idx + gap.len()`, and
performs the overlap-safe `ptr::copy`. -/
def set_position (gb : GapBuffer T) (idx : Nat) : Except Err (GapBuffer T) :=
  if idx > gb.data_len then .error .indexOutOfBounds
  else if idx < gb.gapStart then
    .ok { gb with
          gapStart := idx, gapEnd := idx + gb.gapLen,
          buffer := memmove gb.buffer idx (idx + gb.gapLen) (gb.gapStart - idx) }
  else
    .ok { gb with
          gapStart := idx, gapEnd := idx + gb.gapLen,
          buffer := memmove gb.buffer gb.gapEnd gb.gapStart
            (gb.translate_idx idx - gb.gapEnd) }

/-- `pub fn remove(&mut self)` from `src/lib.rs` lines 91–100, exactly as
written there: if `gap.end == capacity` it returns with no change;
otherwise it performs `std::ptr::read` at `gap.end` (which leaves memory
unchanged; the value read is *discarded* — the function's return type is
the unit type) and advances `gap.end += 1`. -/
def remove (gb : GapBuffer T) : GapBuffer T :=
  if gb.gapEnd = gb.cap then gb
  else { gb with gapEnd := gb.gapEnd + 1 }

/-- Modelled from the spec: the value-returning deletion contract
`remove() -> Option<T>` of §4.4, which is missing from `src/lib.rs`
(whose `remove` returns unit and discards the value it reads) yet is
required by its own caller `src/main.rs` (`gb.remove().unwrap()`).
Follows the spec's words: if `gap_end == capacity` return the
absent-value indicator and make no change; otherwise read (move out) the
element at `gap_end`, advance `gap_end += 1`, and return the element. -/
def remove_returning (gb : GapBuffer T) : Option T × GapBuffer T :=
  if gb.gapEnd = gb.cap then (none, gb)
  else (gb.buffer gb.gapEnd, { gb with gapEnd := gb.gapEnd + 1 })

/-- `fn enlarge(&mut self)` from `src/lib.rs` lines 117–143: allocates a
fresh buffer of capacity `2 × old_capacity` (uninitialized: `none`
outside the copied ranges), copies `[0, gap.start)` to the same offsets,
copies `[gap.start, old_capacity)` to offsets starting at
`gap.start + old_capacity`, and sets `gap.end = gap.start + old_capacity`. -/
def enlarge (gb : GapBuffer T) : GapBuffer T where
  cap := gb.cap * 2
  buffer := fun i =>
    if i < gb.gapStart then gb.buffer i
    else if gb.gapStart + gb.cap ≤ i ∧ i < gb.cap * 2 then gb.buffer (i - gb.cap)
    else none
  gapStart := gb.gapStart
  gapEnd := gb.gapStart + gb.cap

/-- `pub fn insert(&mut self, elem: T)`: enlarges first if the gap is
empty, then `ptr::write`s `elem` at `gap.start` and advances
`gap.start += 1`. -/
def insert (gb : GapBuffer T) (elem : T) : GapBuffer T :=
  let gb := if gb.gapLen = 0 then gb.enlarge else gb
  { gb with
    buffer := fun i => if i = gb.gapStart then some elem else gb.buffer i,
    gapStart := gb.gapStart + 1 }

/-- `pub fn insert_iter<I: IntoIterator<Item = T>>(&mut self, elems: I)`:
inserts each element in order via repeated `insert`. -/
def insert_iter (gb : GapBuffer T) (elems : List T) : GapBuffer T :=
  elems.foldl insert gb

/-- A physical segment of the buffer: the slot contents at indices
`[s, s + n)`, in order. -/
def seg (f : Nat → Option T) (s n : Nat) : List (Option T) :=
  (List.range' s n).map f

/-- The logical sequence (spec §3): prefix `[0, gap_start)` followed by
suffix `[gap_end, capacity)`. -/
def logicalSeq (gb : GapBuffer T) : List (Option T) :=
  seg gb.buffer 0 gb.gapStart ++ seg gb.buffer gb.gapEnd (gb.cap - gb.gapEnd)

/-- The structural invariant: `gap_start ≤ gap_end ≤ capacity`, together
with positivity of the capacity, which `new` always establishes
(`capacity = N + GAP_SIZE ≥ 2`) and every operation preserves. -/
abbrev Inv (gb : GapBuffer T) : Prop :=
  gb.gapStart ≤ gb.gapEnd ∧ gb.gapEnd ≤ gb.cap ∧ 0 < gb.cap

/-! ## The demo driver (`src/main.rs`) -/

/-- The operation sequence of `fn main` in `src/main.rs`, which constructs
the buffer from `["h0", ..., "h6"]` and drives
`set_position`/`remove`/`insert`/`insert_iter`.  `main.rs` uses the
value-returning `remove` (`assert_eq!("h4", gb.remove().unwrap())`), so the
translation threads `remove_returning`; each `set_position` result is
unwrapped with `Option.bind` (`main.rs` relies on the calls not failing).
Returns the three `remove` results and the final logical sequence. -/
def main_scenario :
    Option (Option String × Option String × Option String × List (Option String)) :=
  let gb0 := new ["h0", "h1", "h2", "h3", "h4", "h5", "h6"]
  (set_position gb0 4).toOption.bind fun gb1 =>
  let r1 := remove_returning gb1
  (set_position r1.2 6).toOption.bind fun gb2 =>
  let r2 := remove_returning gb2
  (set_position r2.2 0).toOption.bind fun gb3 =>
  let r3 := remove_returning gb3
  let gb4 := insert r3.2 "h0"
  (set_position gb4 4).toOption.bind fun gb5 =>
  let gb6 := insert gb5 "h4"
  (set_position gb6 7).toOption.bind fun gb7 =>
  let gb8 := insert gb7 "h7"
  let gb9 := insert_iter gb8 ["h8", "h9", "h10", "h11", "h12"]
  some (r1.1, r2.1, r3.1, logicalSeq gb9)

/-- The same operation sequence driven with the `remove` that `src/lib.rs`
actually defines (unit-returning, value-discarding); only the final
logical sequence can be observed. -/
def main_scenario_lib_remove : Option (List (Option String)) :=
  let gb0 := new ["h0", "h1", "h2", "h3", "h4", "h5", "h6"]
  (set_position gb0 4).toOption.bind fun gb1 =>
  (set_position (remove gb1) 6).toOption.bind fun gb2 =>
  (set_position (remove gb2) 0).toOption.bind fun gb3 =>
  let gb4 := insert (remove gb3) "h0"
  (set_position gb4 4).toOption.bind fun gb5 =>
  let gb6 := insert gb5 "h4"
  (set_position gb6 7).toOption.bind fun gb7 =>
  let gb8 := insert gb7 "h7"
  let gb9 := insert_iter gb8 ["h8", "h9", "h10", "h11", "h12"]
  some (logicalSeq gb9)


/-! ## Segment algebra -/

theorem seg_succ (f : Nat → Option T) (s n : Nat) :
    seg f s (n + 1) = f s :: seg f (s + 1) n := by
  unfold seg
  rw [List.range'_succ, List.map_cons]

theorem seg_append (f : Nat → Option T) (s m n : Nat) :
    seg f s m ++ seg f (s + m) n = seg f s (m + n) := by
  unfold seg
  rw [← List.map_append, List.range'_append_1, Nat.add_comm n m]

theorem seg_congr (f g : Nat → Option T) (s t n : Nat)
    (h : ∀ k, k < n → f (s + k) = g (t + k)) : seg f s n = seg g t n := by
  induction n generalizing s t with
  | zero => rfl
  | succ n ih =>
    rw [seg_succ, seg_succ]
    have h0 : f s = g t := by simpa using h 0 n.succ_pos
    rw [h0]
    congr 1
    refine ih (s + 1) (t + 1) fun k hk => ?_
    have hs : s + 1 + k = s + (k + 1) := by omega
    have ht : t + 1 + k = t + (k + 1) := by omega
    rw [hs, ht]
    exact h (k + 1) (by omega)

theorem seg_length (f : Nat → Option T) (s n : Nat) : (seg f s n).length = n := by
  unfold seg
  rw [List.length_map, List.length_range']

theorem seg_getElem? (f : Nat → Option T) (s n i : Nat) (h : i < n) :
    (seg f s n)[i]? = some (f (s + i)) := by
  unfold seg
  rw [List.getElem?_map, List.getElem?_range' s 1 h]
  simp

theorem seg_get_self (l : List T) :
    seg (fun k => l[k]?) 0 l.length = l.map some := by
  induction l with
  | nil => rfl
  | cons a l ih =>
    show seg _ 0 (l.length + 1) = _
    rw [seg_succ, List.map_cons]
    congr 1
    · simp
    · rw [seg_congr (fun k => (a :: l)[k]?) (fun k => l[k]?) 1 0 l.length
        (fun k hk => by simp [Nat.add_comm 1 k])]
      exact ih

theorem eraseIdx_append_cons (l r : List (Option T)) (a : Option T) :
    (l ++ a :: r).eraseIdx l.length = l ++ r := by
  induction l with
  | nil => rfl
  | cons x l ih => simpa using ih

theorem seg_split (f : Nat → Option T) (s n m : Nat) (h : m ≤ n) :
    seg f s n = seg f s m ++ seg f (s + m) (n - m) := by
  rw [seg_append f s m (n - m), show m + (n - m) = n from by omega]

/-! ## Effect of the two `set_position` relocations on the logical sequence -/

/-- Moving the cursor left (`idx < gap_start`): the `ptr::copy` of
`gap_start - idx` elements from physical `idx` to `idx + gap_length`
leaves the logical sequence unchanged. -/
theorem memmove_logical_left (f : Nat → Option T) (c gS gE idx : Nat)
    (h1 : gS ≤ gE) (h2 : gE ≤ c) (hlt : idx < gS) :
    seg (memmove f idx (idx + (gE - gS)) (gS - idx)) 0 idx ++
      seg (memmove f idx (idx + (gE - gS)) (gS - idx)) (idx + (gE - gS))
        (c - (idx + (gE - gS))) =
    seg f 0 gS ++ seg f gE (c - gE) := by
  have e1 : seg (memmove f idx (idx + (gE - gS)) (gS - idx)) 0 idx = seg f 0 idx :=
    seg_congr _ _ 0 0 idx fun k hk => by
      simp only [memmove]
      rw [if_neg (by omega)]
  have e2 : seg (memmove f idx (idx + (gE - gS)) (gS - idx)) (idx + (gE - gS))
      (gS - idx) = seg f idx (gS - idx) :=
    seg_congr _ _ (idx + (gE - gS)) idx (gS - idx) fun k hk => by
      simp only [memmove]
      rw [if_pos (by omega)]
      congr 1
      omega
  have e3 : seg (memmove f idx (idx + (gE - gS)) (gS - idx)) gE (c - gE) =
      seg f gE (c - gE) :=
    seg_congr _ _ gE gE (c - gE) fun k hk => by
      simp only [memmove]
      rw [if_neg (by omega)]
  rw [seg_split (memmove f idx (idx + (gE - gS)) (gS - idx)) (idx + (gE - gS))
      (c - (idx + (gE - gS))) (gS - idx) (by omega),
    show idx + (gE - gS) + (gS - idx) = gE from by omega,
    show c - (idx + (gE - gS)) - (gS - idx) = c - gE from by omega,
    seg_split f 0 gS idx (by omega), Nat.zero_add, e1, e2, e3,
    List.append_assoc]

/-- Moving the cursor right or keeping it (`gap_start ≤ idx`): the
`ptr::copy` of `translate_idx(idx) - gap_end` elements from physical
`gap_end` to `gap_start` leaves the logical sequence unchanged. -/
theorem memmove_logical_right (f : Nat → Option T) (c gS gE idx : Nat)
    (h1 : gS ≤ gE) (h2 : gE ≤ c) (hge : gS ≤ idx) (hidx : idx + (gE - gS) ≤ c) :
    seg (memmove f gE gS (idx + (gE - gS) - gE)) 0 idx ++
      seg (memmove f gE gS (idx + (gE - gS) - gE)) (idx + (gE - gS))
        (c - (idx + (gE - gS))) =
    seg f 0 gS ++ seg f gE (c - gE) := by
  have e1 : seg (memmove f gE gS (idx + (gE - gS) - gE)) 0 gS = seg f 0 gS :=
    seg_congr _ _ 0 0 gS fun k hk => by
      simp only [memmove]
      rw [if_neg (by omega)]
  have e2 : seg (memmove f gE gS (idx + (gE - gS) - gE)) gS (idx - gS) =
      seg f gE (idx - gS) :=
    seg_congr _ _ gS gE (idx - gS) fun k hk => by
      simp only [memmove]
      rw [if_pos (by omega)]
      congr 1
      omega
  have e3 : seg (memmove f gE gS (idx + (gE - gS) - gE)) (idx + (gE - gS))
      (c - (idx + (gE - gS))) = seg f (idx + (gE - gS)) (c - (idx + (gE - gS))) :=
    seg_congr _ _ (idx + (gE - gS)) (idx + (gE - gS)) (c - (idx + (gE - gS)))
      fun k hk => by
        simp only [memmove]
        rw [if_neg (by omega)]
  rw [seg_split (memmove f gE gS (idx + (gE - gS) - gE)) 0 idx gS hge,
    Nat.zero_add, e1, e2, e3,
    seg_split f gE (c - gE) (idx - gS) (by omega),
    show gE + (idx - gS) = idx + (gE - gS) from by omega,
    show c - gE - (idx - gS) = c - (idx + (gE - gS)) from by omega,
    List.append_assoc]

/-! ## Definitional equations and invariant preservation -/

theorem set_position_def_left (gb : GapBuffer T) (idx : Nat)
    (hle : ¬ idx > gb.data_len) (hlt : idx < gb.gapStart) :
    set_position gb idx = Except.ok { gb with
      gapStart := idx, gapEnd := idx + gb.gapLen,
      buffer := memmove gb.buffer idx (idx + gb.gapLen) (gb.gapStart - idx) } := by
  unfold set_position
  rw [if_neg hle, if_pos hlt]

theorem set_position_def_right (gb : GapBuffer T) (idx : Nat)
    (hle : ¬ idx > gb.data_len) (hge : ¬ idx < gb.gapStart) :
    set_position gb idx = Except.ok { gb with
      gapStart := idx, gapEnd := idx + gb.gapLen,
      buffer := memmove gb.buffer gb.gapEnd gb.gapStart
        (gb.translate_idx idx - gb.gapEnd) } := by
  unfold set_position
  rw [if_neg hle, if_neg hge]

theorem insert_def_zero (gb : GapBuffer T) (e : T) (h : gb.gapLen = 0) :
    insert gb e = { gb.enlarge with
      buffer := fun i => if i = gb.enlarge.gapStart then some e
        else gb.enlarge.buffer i,
      gapStart := gb.enlarge.gapStart + 1 } := by
  unfold insert
  rw [if_pos h]

theorem insert_def_pos (gb : GapBuffer T) (e : T) (h : ¬ gb.gapLen = 0) :
    insert gb e = { gb with
      buffer := fun i => if i = gb.gapStart then some e else gb.buffer i,
      gapStart := gb.gapStart + 1 } := by
  unfold insert
  rw [if_neg h]

theorem new_establishes_inv (data : List T) : Inv (new data) :=
  ⟨by show (0 : Nat) ≤ 2; omega,
    by show 2 ≤ data.length + 2; omega,
    by show 0 < data.length + 2; omega⟩

theorem enlarge_inv (gb : GapBuffer T) (h : Inv gb) : Inv (enlarge gb) := by
  obtain ⟨h1, h2, h3⟩ := h
  exact ⟨by show gb.gapStart ≤ gb.gapStart + gb.cap; omega,
    by show gb.gapStart + gb.cap ≤ gb.cap * 2; omega,
    by show 0 < gb.cap * 2; omega⟩

theorem insert_inv (gb : GapBuffer T) (e : T) (h : Inv gb) : Inv (insert gb e) := by
  obtain ⟨h1, h2, h3⟩ := h
  have hgl : gb.gapLen = gb.gapEnd - gb.gapStart := rfl
  by_cases hg : gb.gapLen = 0
  · rw [insert_def_zero gb e hg]
    exact ⟨by show gb.gapStart + 1 ≤ gb.gapStart + gb.cap; omega,
      by show gb.gapStart + gb.cap ≤ gb.cap * 2; omega,
      by show 0 < gb.cap * 2; omega⟩
  · rw [insert_def_pos gb e hg]
    exact ⟨by show gb.gapStart + 1 ≤ gb.gapEnd; omega,
      by show gb.gapEnd ≤ gb.cap; omega, h3⟩

theorem insert_iter_inv (gb : GapBuffer T) (es : List T) (h : Inv gb) :
    Inv (insert_iter gb es) := by
  induction es generalizing gb with
  | nil => exact h
  | cons e es ih => exact ih (insert gb e) (insert_inv gb e h)

theorem remove_inv (gb : GapBuffer T) (h : Inv gb) : Inv (remove gb) := by
  obtain ⟨h1, h2, h3⟩ := h
  unfold remove
  split
  · exact ⟨h1, h2, h3⟩
  · next hne =>
    exact ⟨by show gb.gapStart ≤ gb.gapEnd + 1; omega,
      by show gb.gapEnd + 1 ≤ gb.cap; omega, h3⟩

/-- Master lemma for `set_position` on a valid index: it succeeds, the
resulting buffer satisfies the invariant, has `gap_start = idx`, the same
gap length and capacity, the same logical sequence and length, and the
relocated block is exactly the one the algorithm describes in each
direction. -/
theorem set_position_spec (gb : GapBuffer T) (idx : Nat) (h : Inv gb)
    (hidx : idx ≤ gb.data_len) :
    ∃ gb2, set_position gb idx = Except.ok gb2 ∧ Inv gb2 ∧
      gb2.gapStart = idx ∧ gb2.gapLen = gb.gapLen ∧ gb2.cap = gb.cap ∧
      logicalSeq gb2 = logicalSeq gb ∧ gb2.len = gb.len ∧
      (idx < gb.gapStart → ∀ k, k < gb.gapStart - idx →
        gb2.buffer (idx + gb.gapLen + k) = gb.buffer (idx + k)) ∧
      (gb.gapStart ≤ idx → ∀ k, k < idx - gb.gapStart →
        gb2.buffer (gb.gapStart + k) = gb.buffer (gb.gapEnd + k)) := by
  obtain ⟨h1, h2, h3⟩ := h
  have hgl : gb.gapLen = gb.gapEnd - gb.gapStart := rfl
  have hdl : gb.data_len = gb.cap - gb.gapLen := rfl
  have hnot : ¬ idx > gb.data_len := by omega
  by_cases hlt : idx < gb.gapStart
  · refine ⟨_, set_position_def_left gb idx hnot hlt, ?_, rfl, ?_, rfl, ?_, ?_, ?_, ?_⟩
    · exact ⟨by show idx ≤ idx + gb.gapLen; omega,
        by show idx + gb.gapLen ≤ gb.cap; omega, h3⟩
    · show idx + gb.gapLen - idx = gb.gapLen
      omega
    · exact memmove_logical_left gb.buffer gb.cap gb.gapStart gb.gapEnd idx h1 h2 hlt
    · show gb.cap - (idx + gb.gapLen - idx) = gb.cap - gb.gapLen
      omega
    · intro _ k hk
      show memmove gb.buffer idx (idx + gb.gapLen) (gb.gapStart - idx)
        (idx + gb.gapLen + k) = gb.buffer (idx + k)
      simp only [memmove]
      rw [if_pos (by omega)]
      congr 1
      omega
    · intro hge
      exact absurd hlt (by omega)
  · have hge : gb.gapStart ≤ idx := by omega
    have htr : gb.translate_idx idx = idx + gb.gapLen := by
      unfold translate_idx
      rw [if_neg hlt]
    refine ⟨_, set_position_def_right gb idx hnot hlt, ?_, rfl, ?_, rfl, ?_, ?_, ?_, ?_⟩
    · exact ⟨by show idx ≤ idx + gb.gapLen; omega,
        by show idx + gb.gapLen ≤ gb.cap; omega, h3⟩
    · show idx + gb.gapLen - idx = gb.gapLen
      omega
    · show seg (memmove gb.buffer gb.gapEnd gb.gapStart
          (gb.translate_idx idx - gb.gapEnd)) 0 idx ++
        seg (memmove gb.buffer gb.gapEnd gb.gapStart
          (gb.translate_idx idx - gb.gapEnd)) (idx + gb.gapLen)
          (gb.cap - (idx + gb.gapLen)) = logicalSeq gb
      rw [htr]
      exact memmove_logical_right gb.buffer gb.cap gb.gapStart gb.gapEnd idx
        h1 h2 hge (by omega)
    · show gb.cap - (idx + gb.gapLen - idx) = gb.cap - gb.gapLen
      omega
    · intro hcontra
      exact absurd hcontra (by omega)
    · intro _ k hk
      show memmove gb.buffer gb.gapEnd gb.gapStart
        (gb.translate_idx idx - gb.gapEnd) (gb.gapStart + k) = gb.buffer (gb.gapEnd + k)
      rw [htr]
      simp only [memmove]
      rw [if_pos (by omega)]
      congr 1
      omega

theorem set_position_ok_inv (gb : GapBuffer T) (idx : Nat) (h : Inv gb)
    (gb2 : GapBuffer T) (heq : set_position gb idx = Except.ok gb2) : Inv gb2 := by
  by_cases hidx : idx ≤ gb.data_len
  · obtain ⟨gb3, heq2, hinv, _⟩ := set_position_spec gb idx h hidx
    rw [heq] at heq2
    injection heq2 with h2
    subst h2
    exact hinv
  · unfold set_position at heq
    rw [if_pos (by omega)] at heq
    exact absurd heq (by simp)

/-- Looking up logical index `idx < len` in the logical sequence lands on
the slot at the translated physical index. -/
theorem logicalSeq_getElem (gb : GapBuffer T) (idx : Nat) (h : Inv gb)
    (hidx : idx < gb.data_len) :
    (logicalSeq gb)[idx]? = some (gb.buffer (gb.translate_idx idx)) := by
  obtain ⟨h1, h2, h3⟩ := h
  have hgl : gb.gapLen = gb.gapEnd - gb.gapStart := rfl
  have hdl : gb.data_len = gb.cap - gb.gapLen := rfl
  unfold logicalSeq translate_idx
  by_cases hlt : idx < gb.gapStart
  · rw [if_pos hlt,
      List.getElem?_append_left (show idx < (seg gb.buffer 0 gb.gapStart).length by
        rw [seg_length]; exact hlt),
      seg_getElem? _ _ _ _ hlt, Nat.zero_add]
  · rw [if_neg hlt,
      List.getElem?_append_right (show (seg gb.buffer 0 gb.gapStart).length ≤ idx by
        rw [seg_length]; omega),
      seg_length, seg_getElem? _ _ _ _ (show idx - gb.gapStart < gb.cap - gb.gapEnd by
        omega),
      show gb.gapEnd + (idx - gb.gapStart) = idx + gb.gapLen from by omega]

/-! ## Claims -/

/-- C1 (code evaluated at the failing input): the claim — and the spec's
§4.4 contract, which `src/main.rs` relies on via
`assert_eq!("h4", gb.remove().unwrap())` — says `remove()` returns the
removed element as an optional value.  The `remove` of `src/lib.rs`
performs exactly the claimed state change (when `gap_end < capacity` it
reads the slot at `gap_end` and advances `gap_end` by 1; memory is
untouched) but its return type is unit: the value read is discarded, not
returned.  On `new ["a"]`, the spec's value-returning contract
(`remove_returning`) yields `some "a"` paired with the very state the
code's `remove` produces; the code offers no way to obtain `"a"`. -/
theorem remove_discards_value_eval :
    remove_returning (new (["a"] : List String)) =
      (some "a", remove (new (["a"] : List String))) ∧
    (remove (new (["a"] : List String))).gapEnd = 3 ∧
    (remove (new (["a"] : List String))).gapStart = 0 ∧
    logicalSeq (remove (new (["a"] : List String))) = [] := by
  refine ⟨rfl, by decide, by decide, by decide⟩

/-- C2 (code evaluated on the worked scenario): the full §8 scenario.
Driven with the spec's value-returning `remove` contract
(`main_scenario`, the faithful translation of `src/main.rs`), the three
removes return `some "h4"`, `none`, `some "h0"` and the final logical
sequence is `["h0", ..., "h12"]` in numeric order — exactly as claimed.
Driven with the `remove` that `src/lib.rs` actually defines
(`main_scenario_lib_remove`), the same final sequence results, but the
unit-returning `remove` cannot produce the three return values that the
claim (and `main.rs`'s own `assert_eq!`s) state. -/
theorem worked_scenario_eval :
    main_scenario = some (some "h4", none, some "h0",
      ["h0", "h1", "h2", "h3", "h4", "h5", "h6", "h7", "h8", "h9", "h10", "h11",
        "h12"].map some) ∧
    main_scenario_lib_remove = some
      (["h0", "h1", "h2", "h3", "h4", "h5", "h6", "h7", "h8", "h9", "h10", "h11",
        "h12"].map some) := by
  exact ⟨by decide, by decide⟩

/-- C3: `new` establishes the invariant `0 ≤ gap_start ≤ gap_end ≤
capacity`, every state-changing public operation preserves it
(`get_ref_pos` and `len` take the buffer by shared reference and mutate
nothing), and `len()` always equals `capacity - (gap_end - gap_start)`,
recomputed from the current gap.  `Inv` carries `0 < capacity` alongside,
which `new` also establishes (`capacity = N + GAP_SIZE ≥ 2`). -/
theorem invariant_preservation (data : List T) (gb : GapBuffer T) (idx : Nat)
    (e : T) (es : List T) (h : Inv gb) :
    Inv (new data) ∧
    (∀ gb2, set_position gb idx = Except.ok gb2 → Inv gb2) ∧
    Inv (insert gb e) ∧ Inv (insert_iter gb es) ∧ Inv (remove gb) ∧
    len gb = gb.cap - (gb.gapEnd - gb.gapStart) :=
  ⟨new_establishes_inv data, fun gb2 heq => set_position_ok_inv gb idx h gb2 heq,
    insert_inv gb e h, insert_iter_inv gb es h, remove_inv gb h, rfl⟩

theorem invariant_preservation_witness :
    Inv (new (["a"] : List String)) ∧
    (∀ gb2, set_position (new (["b"] : List String)) 0 = Except.ok gb2 → Inv gb2) ∧
    Inv (insert (new (["b"] : List String)) "c") ∧
    Inv (insert_iter (new (["b"] : List String)) ["d"]) ∧
    Inv (remove (new (["b"] : List String))) ∧
    len (new (["b"] : List String)) = (new (["b"] : List String)).cap -
      ((new (["b"] : List String)).gapEnd - (new (["b"] : List String)).gapStart) :=
  invariant_preservation ["a"] (new ["b"]) 0 "c" ["d"] (by decide)

/-- C4: for `idx ≤ len()`, `set_position idx` succeeds and yields a state
with `gap_start = idx`, unchanged gap length, unchanged logical sequence
and length; a left move relocates `[idx, gap_start)` by `+gap_length`, a
right move relocates `[gap_end, idx + gap_length)` by `-gap_length` to
start at `gap_start`; and a second `set_position idx` also succeeds and
again leaves the logical sequence and `len()` unchanged. -/
theorem set_position_moves_gap (gb : GapBuffer T) (idx : Nat) (h : Inv gb)
    (hidx : idx ≤ len gb) :
    ∃ gb2, set_position gb idx = Except.ok gb2 ∧
      gb2.gapStart = idx ∧ gb2.gapLen = gb.gapLen ∧
      logicalSeq gb2 = logicalSeq gb ∧ len gb2 = len gb ∧
      (idx < gb.gapStart → ∀ k, k < gb.gapStart - idx →
        gb2.buffer (idx + gb.gapLen + k) = gb.buffer (idx + k)) ∧
      (gb.gapStart ≤ idx → ∀ k, k < idx - gb.gapStart →
        gb2.buffer (gb.gapStart + k) = gb.buffer (gb.gapEnd + k)) ∧
      ∃ gb3, set_position gb2 idx = Except.ok gb3 ∧
        logicalSeq gb3 = logicalSeq gb ∧ len gb3 = len gb := by
  obtain ⟨gb2, heq, hinv2, hgs, hgl, hcap, hseq, hlen, hA, hB⟩ :=
    set_position_spec gb idx h hidx
  have e1 : len gb = gb.cap - gb.gapLen := rfl
  have e2 : gb2.data_len = gb2.cap - gb2.gapLen := rfl
  have hidx2 : idx ≤ gb2.data_len := by omega
  obtain ⟨gb3, heq3, _, _, _, _, hseq3, hlen3, _⟩ :=
    set_position_spec gb2 idx hinv2 hidx2
  exact ⟨gb2, heq, hgs, hgl, hseq, hlen, hA, hB, gb3, heq3, hseq3.trans hseq,
    hlen3.trans hlen⟩

theorem set_position_moves_gap_witness :
    ∃ gb2, set_position (new (["a", "b"] : List String)) 1 = Except.ok gb2 ∧
      gb2.gapStart = 1 ∧ gb2.gapLen = (new (["a", "b"] : List String)).gapLen ∧
      logicalSeq gb2 = logicalSeq (new (["a", "b"] : List String)) ∧
      len gb2 = len (new (["a", "b"] : List String)) ∧
      (1 < (new (["a", "b"] : List String)).gapStart →
        ∀ k, k < (new (["a", "b"] : List String)).gapStart - 1 →
        gb2.buffer (1 + (new (["a", "b"] : List String)).gapLen + k) =
          (new (["a", "b"] : List String)).buffer (1 + k)) ∧
      ((new (["a", "b"] : List String)).gapStart ≤ 1 →
        ∀ k, k < 1 - (new (["a", "b"] : List String)).gapStart →
        gb2.buffer ((new (["a", "b"] : List String)).gapStart + k) =
          (new (["a", "b"] : List String)).buffer
            ((new (["a", "b"] : List String)).gapEnd + k)) ∧
      ∃ gb3, set_position gb2 1 = Except.ok gb3 ∧
        logicalSeq gb3 = logicalSeq (new (["a", "b"] : List String)) ∧
        len gb3 = len (new (["a", "b"] : List String)) :=
  set_position_moves_gap (new ["a", "b"]) 1 (by decide) (by decide)

/-- C5: for `idx > len()`, `set_position` fails with `IndexOutOfBounds`
(the `panic!("index out of bounds")`): the bound is the first thing the
function checks, before any pointer arithmetic, and the error result
carries no new state — the buffer is left completely unmodified. -/
theorem set_position_oob (gb : GapBuffer T) (idx : Nat) (h : len gb < idx) :
    set_position gb idx = Except.error Err.indexOutOfBounds := by
  unfold set_position
  rw [if_pos (show idx > gb.data_len from h)]

theorem set_position_oob_witness :
    set_position (new (["a"] : List String)) 2 = Except.error Err.indexOutOfBounds :=
  set_position_oob (new ["a"]) 2 (by decide)

/-- C6: for `idx < len()`, `get_ref_pos` translates the logical index
exactly as claimed (`idx` when `idx < gap_start`, else `idx +
gap_length`) and returns the `idx`-th element of the logical sequence. -/
theorem get_ref_pos_logical (gb : GapBuffer T) (idx : Nat) (h : Inv gb)
    (hidx : idx < len gb) :
    translate_idx gb idx =
      (if idx < gb.gapStart then idx else idx + gb.gapLen) ∧
    (logicalSeq gb)[idx]? = some (get_ref_pos gb idx) :=
  ⟨rfl, logicalSeq_getElem gb idx h hidx⟩

theorem get_ref_pos_logical_witness :
    translate_idx (new (["a", "b"] : List String)) 1 =
      (if 1 < (new (["a", "b"] : List String)).gapStart then 1
        else 1 + (new (["a", "b"] : List String)).gapLen) ∧
    (logicalSeq (new (["a", "b"] : List String)))[1]? =
      some (get_ref_pos (new (["a", "b"] : List String)) 1) :=
  get_ref_pos_logical (new ["a", "b"]) 1 (by decide) (by decide)

/-- C7 counterexample: the claim says an out-of-range positional read
fails with a *checked* `IndexOutOfBounds` at the public boundary.  It
does not: on `new ["a"]` (capacity 3, `len() = 1`) and index `1 ≥
len()`, `get_ref_pos` raises nothing — it translates `1` to physical
index `3 = capacity` and performs the raw unchecked read there, outside
the backing allocation (`none` in the model). -/
theorem get_ref_pos_unchecked_cex :
    len (new (["a"] : List String)) ≤ 1 ∧
    translate_idx (new (["a"] : List String)) 1 = 3 ∧
    (new (["a"] : List String)).cap = 3 ∧
    get_ref_pos (new (["a"] : List String)) 1 = none := by
  decide

/-- C7 amended: for every `idx ≥ len()`, `get_ref_pos` performs no bounds
check and raises no error: it performs the raw access at translated
physical index `idx + gap_length`, which is `≥ capacity`, i.e. outside
the backing storage (undefined behavior at the storage level).  The
buffer itself is untouched — the function takes it by shared reference —
but no checked `IndexOutOfBounds` failure is produced. -/
theorem get_ref_pos_oob_raw (gb : GapBuffer T) (idx : Nat) (h : Inv gb)
    (hidx : len gb ≤ idx) :
    gb.cap ≤ translate_idx gb idx ∧
    get_ref_pos gb idx = gb.buffer (translate_idx gb idx) := by
  obtain ⟨h1, h2, h3⟩ := h
  have hgl : gb.gapLen = gb.gapEnd - gb.gapStart := rfl
  have hdl : len gb = gb.cap - gb.gapLen := rfl
  refine ⟨?_, rfl⟩
  unfold translate_idx
  rw [if_neg (by omega)]
  omega

theorem get_ref_pos_oob_raw_witness :
    (new (["a"] : List String)).cap ≤ translate_idx (new (["a"] : List String)) 1 ∧
    get_ref_pos (new (["a"] : List String)) 1 =
      (new (["a"] : List String)).buffer
        (translate_idx (new (["a"] : List String)) 1) :=
  get_ref_pos_oob_raw (new ["a"]) 1 (by decide) (by decide)

/-- C8 counterexample: the claim quantifies over every state with
`gap_start ≤ gap_end ≤ capacity` and concludes the logical sequence is
unchanged.  On `new ["a"]` (gap `[0, 2)` nonempty, hypothesis satisfied)
`enlarge` relocates `[gap_start, old_capacity)` — which includes the two
stale gap slots — into the live suffix of the new buffer: the logical
sequence becomes `[none, none, some "a"]` instead of `[some "a"]`. -/
theorem enlarge_changes_logicalSeq_cex :
    (new (["a"] : List String)).gapStart ≤ (new (["a"] : List String)).gapEnd ∧
    (new (["a"] : List String)).gapEnd ≤ (new (["a"] : List String)).cap ∧
    logicalSeq ((new (["a"] : List String)).enlarge) = [none, none, some "a"] ∧
    logicalSeq (new (["a"] : List String)) = [some "a"] ∧
    ¬ logicalSeq ((new (["a"] : List String)).enlarge) =
      logicalSeq (new (["a"] : List String)) := by
  decide

/-- C8 amended: for every state with `gap_start ≤ gap_end ≤ capacity`,
`enlarge` doubles the capacity, keeps the old prefix `[0, gap_start)` at
the same offsets, relocates the old range `[gap_start, old_capacity)` to
offsets starting at `gap_start + old_capacity`, keeps `gap_start` and
sets `gap_end = gap_start + old_capacity`, so the new gap has size at
least the old capacity; the logical sequence is unchanged **when the gap
is empty** (`gap_start = gap_end`) — the only situation in which the
code invokes `enlarge` (from `insert`). -/
theorem enlarge_spec (gb : GapBuffer T) (h1 : gb.gapStart ≤ gb.gapEnd)
    (h2 : gb.gapEnd ≤ gb.cap) :
    (enlarge gb).cap = 2 * gb.cap ∧ (enlarge gb).gapStart = gb.gapStart ∧
    (enlarge gb).gapEnd = gb.gapStart + gb.cap ∧
    (∀ i, i < gb.gapStart → (enlarge gb).buffer i = gb.buffer i) ∧
    (∀ k, k < gb.cap - gb.gapStart →
      (enlarge gb).buffer (gb.gapStart + gb.cap + k) = gb.buffer (gb.gapStart + k)) ∧
    gb.cap ≤ (enlarge gb).gapLen ∧
    (gb.gapStart = gb.gapEnd → logicalSeq (enlarge gb) = logicalSeq gb) := by
  refine ⟨by show gb.cap * 2 = 2 * gb.cap; omega, rfl, rfl, ?_, ?_, ?_, ?_⟩
  · intro i hi
    show (if i < gb.gapStart then gb.buffer i
      else if gb.gapStart + gb.cap ≤ i ∧ i < gb.cap * 2 then gb.buffer (i - gb.cap)
      else none) = gb.buffer i
    rw [if_pos hi]
  · intro k hk
    show (if gb.gapStart + gb.cap + k < gb.gapStart then gb.buffer (gb.gapStart + gb.cap + k)
      else if gb.gapStart + gb.cap ≤ gb.gapStart + gb.cap + k ∧
          gb.gapStart + gb.cap + k < gb.cap * 2 then
        gb.buffer (gb.gapStart + gb.cap + k - gb.cap)
      else none) = gb.buffer (gb.gapStart + k)
    rw [if_neg (by omega), if_pos (by omega)]
    congr 1
    omega
  · show gb.cap ≤ gb.gapStart + gb.cap - gb.gapStart
    omega
  · intro heq
    have ep : seg (enlarge gb).buffer 0 gb.gapStart = seg gb.buffer 0 gb.gapStart :=
      seg_congr _ _ 0 0 gb.gapStart fun k hk => by
        show (if 0 + k < gb.gapStart then gb.buffer (0 + k)
          else if gb.gapStart + gb.cap ≤ 0 + k ∧ 0 + k < gb.cap * 2 then
            gb.buffer (0 + k - gb.cap)
          else none) = gb.buffer (0 + k)
        rw [if_pos (by omega)]
    have es : seg (enlarge gb).buffer (gb.gapStart + gb.cap)
        (gb.cap - gb.gapEnd) = seg gb.buffer gb.gapEnd (gb.cap - gb.gapEnd) :=
      seg_congr _ _ (gb.gapStart + gb.cap) gb.gapEnd (gb.cap - gb.gapEnd)
        fun k hk => by
          show (if gb.gapStart + gb.cap + k < gb.gapStart then
              gb.buffer (gb.gapStart + gb.cap + k)
            else if gb.gapStart + gb.cap ≤ gb.gapStart + gb.cap + k ∧
                gb.gapStart + gb.cap + k < gb.cap * 2 then
              gb.buffer (gb.gapStart + gb.cap + k - gb.cap)
            else none) = gb.buffer (gb.gapEnd + k)
          rw [if_neg (by omega), if_pos (by omega)]
          congr 1
          omega
    show seg (enlarge gb).buffer 0 gb.gapStart ++
        seg (enlarge gb).buffer (gb.gapStart + gb.cap)
          (gb.cap * 2 - (gb.gapStart + gb.cap)) =
      seg gb.buffer 0 gb.gapStart ++ seg gb.buffer gb.gapEnd (gb.cap - gb.gapEnd)
    rw [show gb.cap * 2 - (gb.gapStart + gb.cap) = gb.cap - gb.gapEnd from by omega,
      ep, es]

theorem enlarge_spec_witness :
    (enlarge (insert (insert (new (["a"] : List String)) "b") "c")).cap =
      2 * (insert (insert (new (["a"] : List String)) "b") "c").cap ∧
    (enlarge (insert (insert (new (["a"] : List String)) "b") "c")).gapStart =
      (insert (insert (new (["a"] : List String)) "b") "c").gapStart ∧
    (enlarge (insert (insert (new (["a"] : List String)) "b") "c")).gapEnd =
      (insert (insert (new (["a"] : List String)) "b") "c").gapStart +
        (insert (insert (new (["a"] : List String)) "b") "c").cap ∧
    (∀ i, i < (insert (insert (new (["a"] : List String)) "b") "c").gapStart →
      (enlarge (insert (insert (new (["a"] : List String)) "b") "c")).buffer i =
        (insert (insert (new (["a"] : List String)) "b") "c").buffer i) ∧
    (∀ k, k < (insert (insert (new (["a"] : List String)) "b") "c").cap -
        (insert (insert (new (["a"] : List String)) "b") "c").gapStart →
      (enlarge (insert (insert (new (["a"] : List String)) "b") "c")).buffer
          ((insert (insert (new (["a"] : List String)) "b") "c").gapStart +
            (insert (insert (new (["a"] : List String)) "b") "c").cap + k) =
        (insert (insert (new (["a"] : List String)) "b") "c").buffer
          ((insert (insert (new (["a"] : List String)) "b") "c").gapStart + k)) ∧
    (insert (insert (new (["a"] : List String)) "b") "c").cap ≤
      (enlarge (insert (insert (new (["a"] : List String)) "b") "c")).gapLen ∧
    ((insert (insert (new (["a"] : List String)) "b") "c").gapStart =
        (insert (insert (new (["a"] : List String)) "b") "c").gapEnd →
      logicalSeq (enlarge (insert (insert (new (["a"] : List String)) "b") "c")) =
        logicalSeq (insert (insert (new (["a"] : List String)) "b") "c")) :=
  enlarge_spec (insert (insert (new ["a"]) "b") "c") (by decide) (by decide)

/-- C9: `new` on an `N`-element input allocates capacity `N + GAP_SIZE`
with `GAP_SIZE = 2`, sets the gap to `[0, GAP_SIZE)`, places the `N`
elements in order at physical offsets `[GAP_SIZE, N + GAP_SIZE)`, has
`len() = N`, and the logical sequence of the fresh buffer is the input
sequence, in order (round trip). -/
theorem new_spec (data : List T) :
    (new data).cap = data.length + GAP_SIZE ∧ GAP_SIZE = 2 ∧
    (new data).gapStart = 0 ∧ (new data).gapEnd = GAP_SIZE ∧
    (∀ k, k < data.length → (new data).buffer (GAP_SIZE + k) = data[k]?) ∧
    len (new data) = data.length ∧
    logicalSeq (new data) = data.map some := by
  refine ⟨rfl, rfl, rfl, rfl, ?_, ?_, ?_⟩
  · intro k hk
    show (if 2 + k < 2 then none else data[2 + k - 2]?) = data[k]?
    rw [if_neg (by omega), show 2 + k - 2 = k from by omega]
  · show data.length + 2 - (2 - 0) = data.length
    omega
  · show ([] : List (Option T)) ++ seg (new data).buffer 2 (data.length + 2 - 2) =
      data.map some
    rw [List.nil_append, show data.length + 2 - 2 = data.length from by omega,
      seg_congr (new data).buffer (fun k => data[k]?) 2 0 data.length
        (fun k hk => by
          show (if 2 + k < 2 then none else data[2 + k - 2]?) = data[0 + k]?
          rw [if_neg (by omega), show 2 + k - 2 = 0 + k from by omega])]
    exact seg_get_self data

/-- C10: frame effect of `remove` when `gap_end < capacity`: only
`gap_end` changes (by exactly +1); `gap_start`, the capacity and every
memory slot (`ptr::read` writes nothing) are unchanged, `len()` drops by
exactly 1, and the logical sequence loses exactly its element at logical
index `gap_start`. -/
theorem remove_frame (gb : GapBuffer T) (h : Inv gb) (hlt : gb.gapEnd < gb.cap) :
    (remove gb).gapEnd = gb.gapEnd + 1 ∧ (remove gb).gapStart = gb.gapStart ∧
    (remove gb).cap = gb.cap ∧ (∀ i, (remove gb).buffer i = gb.buffer i) ∧
    len (remove gb) + 1 = len gb ∧
    logicalSeq (remove gb) = (logicalSeq gb).eraseIdx gb.gapStart := by
  obtain ⟨h1, h2, h3⟩ := h
  have hne : ¬ gb.gapEnd = gb.cap := by omega
  have hdef : remove gb = { gb with gapEnd := gb.gapEnd + 1 } := by
    unfold remove
    rw [if_neg hne]
  rw [hdef]
  refine ⟨rfl, rfl, rfl, fun i => rfl, ?_, ?_⟩
  · show gb.cap - (gb.gapEnd + 1 - gb.gapStart) + 1 = gb.cap - (gb.gapEnd - gb.gapStart)
    omega
  · show seg gb.buffer 0 gb.gapStart ++
        seg gb.buffer (gb.gapEnd + 1) (gb.cap - (gb.gapEnd + 1)) =
      (seg gb.buffer 0 gb.gapStart ++
        seg gb.buffer gb.gapEnd (gb.cap - gb.gapEnd)).eraseIdx gb.gapStart
    rw [show gb.cap - gb.gapEnd = (gb.cap - (gb.gapEnd + 1)) + 1 from by omega,
      seg_succ]
    have herase := eraseIdx_append_cons (seg gb.buffer 0 gb.gapStart)
      (seg gb.buffer (gb.gapEnd + 1) (gb.cap - (gb.gapEnd + 1))) (gb.buffer gb.gapEnd)
    rw [seg_length] at herase
    rw [herase]

theorem remove_frame_witness :
    (remove (new (["a"] : List String))).gapEnd = (new (["a"] : List String)).gapEnd + 1 ∧
    (remove (new (["a"] : List String))).gapStart = (new (["a"] : List String)).gapStart ∧
    (remove (new (["a"] : List String))).cap = (new (["a"] : List String)).cap ∧
    (∀ i, (remove (new (["a"] : List String))).buffer i =
      (new (["a"] : List String)).buffer i) ∧
    len (remove (new (["a"] : List String))) + 1 = len (new (["a"] : List String)) ∧
    logicalSeq (remove (new (["a"] : List String))) =
      (logicalSeq (new (["a"] : List String))).eraseIdx
        (new (["a"] : List String)).gapStart :=
  remove_frame (new ["a"]) (by decide) (by decide)

end GapBuffer
